import Mathlib

/-!
Verification of the ingredient-normalizer component of the RecipeGrocery
repository (files `src/app.py` and `src/measurement_converter.py`).

The Python code is shallowly embedded as executable Lean definitions:

* Python strings are Lean `String`s; the string operations used by the code
  (`str.split(" ", 2)`, `str.partition(" ")`, `str.strip()`, `str.lower()`,
  the three `re.sub` calls, substring tests with `in`) are implemented
  character-by-character on `List Char`, matching CPython semantics on the
  ASCII text the program processes.
* Python numbers (`int`, `float`, `fractions.Fraction`) are modelled as exact
  rationals `ℚ`.  Every numeric literal the modelled amount grammar accepts is
  a decimal with at most a few digits, and every displayed fraction has
  denominator at most 16, so double-precision rounding never changes any
  displayed result; the embedding therefore treats `float` arithmetic as exact.
* Python exceptions are modelled with `Except PyExc`; a bare `except:` turns
  the error into the documented fallback, a typed `except (A, B):` catches
  exactly those constructors.
* `Fraction.limit_denominator` is embedded as the loop from CPython's
  `fractions.py` (`ldLoop` below), using Euclidean `Int.ediv`/`Int.emod`,
  which agree with Python's floor division `//` and `%` for the positive
  divisors that occur.
-/

/-! ## Basic character and string utilities (CPython semantics, ASCII) -/

/-- Whitespace characters recognised by Python's `str.strip()` / `\s`
(ASCII subset; the recipe corpus is ASCII). -/
def pyIsSpace (c : Char) : Bool :=
  c = ' ' || c = '\t' || c = '\n' || c = '\r' || c = '\x0b' || c = '\x0c'

/-- Characters matched by the regex class `\w` (ASCII subset). -/
def isWordChar (c : Char) : Bool :=
  c.isAlphanum || c = '_'

/-- Python `str.strip()` on a character list: drop leading and trailing
whitespace. -/
def pyStripL (l : List Char) : List Char :=
  List.rdropWhile pyIsSpace (l.dropWhile pyIsSpace)

/-- Python `str.strip()`. -/
def pyStrip (s : String) : String :=
  ⟨pyStripL s.data⟩

/-- Python `str.lower()` (ASCII case mapping). -/
def pyLower (s : String) : String :=
  ⟨s.data.map Char.toLower⟩

/-- Split a character list at the first occurrence of `sep`: returns the part
before the separator and, if the separator occurs, the part after it. -/
def splitFirst (sep : Char) : List Char → List Char × Option (List Char)
  | [] => ([], none)
  | c :: rest =>
    if c = sep then ([], some rest)
    else
      let r := splitFirst sep rest
      (c :: r.1, r.2)

/-- Python `s.split(" ", 2)`: at most three fields, splitting at the first two
single-space characters; empty fields are kept, the third field keeps any
further spaces. -/
def pySplitSpace2 (s : String) : List String :=
  match splitFirst ' ' s.data with
  | (p0, none) => [⟨p0⟩]
  | (p0, some r1) =>
    match splitFirst ' ' r1 with
    | (p1, none) => [⟨p0⟩, ⟨p1⟩]
    | (p1, some r2) => [⟨p0⟩, ⟨p1⟩, ⟨r2⟩]

/-- The third component of Python `s.partition(" ")`: everything after the
first space, or the empty string when there is no space. -/
def afterFirstSpace (l : List Char) : List Char :=
  match splitFirst ' ' l with
  | (_, none) => []
  | (_, some r) => r

/-- Python substring test `pat in hay`. -/
def containsSub (hay pat : List Char) : Bool :=
  decide (pat <:+: hay)

/-- Lexicographic comparison of strings by code point, as Python `<` on `str`. -/
def charListLt : List Char → List Char → Bool
  | [], [] => false
  | [], _ :: _ => true
  | _ :: _, [] => false
  | a :: as, b :: bs => if a = b then charListLt as bs else decide (a < b)

/-- Insert into a sorted duplicate-free list, keeping it sorted and
duplicate-free; folding this models Python's `sorted(set(...))`. -/
def insertSortedDedup (s : List Char) : List (List Char) → List (List Char)
  | [] => [s]
  | t :: rest =>
    if s = t then t :: rest
    else if charListLt s t then s :: t :: rest
    else t :: insertSortedDedup s rest

/-- Decimal digit string value. -/
def digitsVal (l : List Char) : ℕ :=
  l.foldl (fun a c => 10 * a + (c.toNat - 48)) 0

/-- Non-empty string of decimal digits. -/
def allDigits (l : List Char) : Bool :=
  !l.isEmpty && l.all (·.isDigit)

/-- Decimal-integer rendering of a natural number (Python `str`). -/
def natStr (n : ℕ) : String := toString n

/-- Decimal rendering of an integer (Python `str`). -/
def intStr (i : ℤ) : String := toString i

/-- Python `str(Fraction)`: `num` when the denominator is 1, else `num/den`. -/
def ratStr (q : ℚ) : String :=
  if q.den = 1 then intStr q.num else intStr q.num ++ "/" ++ natStr q.den

/-! ## Modelled Python numeric parsing -/

/-- Python exception kinds relevant to this component. -/
inductive PyExc where
  | nameErr
  | synErr
  | valueErr
  | zeroDivErr
deriving DecidableEq, Repr

instance {ε α : Type} [DecidableEq ε] [DecidableEq α] : DecidableEq (Except ε α) :=
  fun x y =>
    match x, y with
    | .ok a, .ok b =>
      if h : a = b then .isTrue (by rw [h])
      else .isFalse (by intro hh; cases hh; exact h rfl)
    | .error a, .error b =>
      if h : a = b then .isTrue (by rw [h])
      else .isFalse (by intro hh; cases hh; exact h rfl)
    | .ok _, .error _ => .isFalse (by intro hh; cases hh)
    | .error _, .ok _ => .isFalse (by intro hh; cases hh)

/-- Split an optional leading sign; returns the sign as `1` or `-1` and the
remaining characters. -/
def splitSign : List Char → ℤ × List Char
  | '-' :: rest => (-1, rest)
  | '+' :: rest => (1, rest)
  | l => (1, l)

/-- Numerator and denominator of an unsigned integer or decimal literal
(`12`, `1.5`, `1.`, `.5`); `none` when the characters are not such a
literal. -/
def parseUnsignedPair (l : List Char) : Option (ℤ × ℕ) :=
  match splitFirst '.' l with
  | (ip, none) => if allDigits ip then some ((digitsVal ip : ℤ), 1) else none
  | (ip, some fp) =>
    if ip.all (·.isDigit) && fp.all (·.isDigit) && !(ip.isEmpty && fp.isEmpty) then
      some (((digitsVal ip * 10 ^ fp.length + digitsVal fp : ℕ) : ℤ), 10 ^ fp.length)
    else none

/-- Signed integer or decimal literal, as an exact rational. -/
def parseSignedNum (l : List Char) : Option ℚ :=
  let sb := splitSign l
  match parseUnsignedPair sb.2 with
  | some p => some (mkRat (sb.1 * p.1) p.2)
  | none => none

/-- Exact division of rationals expressed through `mkRat`, so that the kernel
can evaluate it on closed inputs; for a nonzero divisor it agrees with `/`. -/
def pyDiv (a b : ℚ) : ℚ :=
  if 0 ≤ b.num then mkRat (a.num * b.den) (a.den * b.num).toNat
  else mkRat (-(a.num * b.den)) (a.den * -b.num).toNat

/-- A Python identifier token (which `eval` looks up as a name). -/
def isIdentTok (l : List Char) : Bool :=
  match l with
  | [] => false
  | c :: rest => (c.isAlpha || c = '_') && rest.all isWordChar

/-- Modelled from the code's `eval(parts[0])` in
`measurement_converter.standardize_ingredient`: Python `eval` restricted to
the token forms an amount position can hold — integer, decimal and simple
fraction literals evaluate to their (exact) value, `a/0` raises
`ZeroDivisionError`, an identifier such as `half` raises `NameError`, and
anything else raises `SyntaxError`.  Chained expressions (`1+1`, `1/2/3`)
are outside the modelled grammar. -/
def evalAmountTok (s : String) : Except PyExc ℚ :=
  let l := s.data
  if isIdentTok l then .error .nameErr
  else
    match splitFirst '/' l with
    | (a, none) =>
      match parseSignedNum a with
      | some q => .ok q
      | none => .error .synErr
    | (a, b) =>
      match parseSignedNum a, parseSignedNum (b.getD []) with
      | some qa, some qb =>
        if qb = 0 then .error .zeroDivErr else .ok (pyDiv qa qb)
      | _, _ => .error .synErr

/-- Modelled `fractions.Fraction(string)`: optional surrounding whitespace and
sign, then digits, `digits/digits` (positive denominator digits only) or a
decimal literal; anything else is a parse failure.  `a/0` raises
`ZeroDivisionError`; both failure modes are reported as `none` because every
caller in this code base catches both. -/
def pyFractionParse (s : String) : Option ℚ :=
  let sb := splitSign (pyStripL s.data)
  match splitFirst '/' sb.2 with
  | (a, some b) =>
    if allDigits a && allDigits b then
      if digitsVal b = 0 then none else some (mkRat (sb.1 * digitsVal a) (digitsVal b))
    else none
  | (a, none) =>
    match parseUnsignedPair a with
    | some p => some (mkRat (sb.1 * p.1) p.2)
    | none => none

/-! ## `app.split_ingredient` (spec name: `parse`), from src/app.py lines 80-87 -/

/-- `split_ingredient` from `src/app.py`: split on the first two spaces; with
fewer than three fields return `(1.0, "", ingredient)`; otherwise parse the
first field as a `Fraction` and return `(amount, unit.strip(), name.strip())`,
falling back to `(1.0, "pcs", ingredient)` when the parse raises (the bare
`except:` catches every exception). -/
def split_ingredient (ingredient : String) : ℚ × String × String :=
  let parts := pySplitSpace2 ingredient
  if parts.length < 3 then (1, "", ingredient)
  else
    match parts with
    | [p0, p1, p2] =>
      match pyFractionParse p0 with
      | some amount => (amount, pyStrip p1, pyStrip p2)
      | none => (1, "pcs", ingredient)
    | _ => (1, "", ingredient)

/-! ## `app.get_category` (spec name: `categorize`), from src/app.py lines 90-101 -/

/-- The ordered category table from `get_category`; a Python `dict` literal
iterates in insertion order, so the embedding is an ordered association list. -/
def categoriesTable : List (String × List String) :=
  [("Produce", ["apple", "onion", "garlic", "spinach", "tomato", "potato",
                "carrot", "lime", "lemon", "herb"]),
   ("Meat/Seafood", ["chicken", "beef", "pork", "shrimp", "salmon", "steak", "bacon"]),
   ("Dairy/Refrigerated", ["milk", "cheese", "butter", "eggs", "yogurt", "cream"]),
   ("Pantry", ["flour", "sugar", "salt", "pepper", "oil", "pasta", "syrup", "vinegar"]),
   ("Frozen", ["frozen", "ice cream", "pizza"])]

/-- Does any keyword of the list occur as a substring of the (already
lower-cased) name?  Embeds `any(kw in item_name for kw in keywords)`. -/
def catHit (nameLower : String) (kws : List String) : Bool :=
  kws.any (fun kw => containsSub nameLower.data kw.data)

/-- The `for category, keywords in categories.items():` loop of
`get_category`: first matching entry wins, `"Other"` when none matches. -/
def firstMatchingCategory (nameLower : String) : List (String × List String) → String
  | [] => "Other"
  | (cat, kws) :: rest =>
    if catHit nameLower kws then cat else firstMatchingCategory nameLower rest

/-- `get_category` from `src/app.py`. -/
def get_category (item_name : String) : String :=
  firstMatchingCategory (pyLower item_name) categoriesTable

/-! ## Generic facts about the utilities -/

theorem pySplitSpace2_length_le (s : String) : (pySplitSpace2 s).length ≤ 3 := by
  unfold pySplitSpace2
  rcases splitFirst ' ' s.data with ⟨p0, _ | r1⟩
  · simp
  · rcases h : splitFirst ' ' r1 with ⟨p1, _ | r2⟩ <;> simp [h]

theorem pySplitSpace2_ne_nil (s : String) : pySplitSpace2 s ≠ [] := by
  unfold pySplitSpace2
  rcases splitFirst ' ' s.data with ⟨p0, _ | r1⟩
  · simp
  · rcases h : splitFirst ' ' r1 with ⟨p1, _ | r2⟩ <;> simp [h]

theorem splitFirst_append (sep : Char) (l : List Char) :
    (splitFirst sep l).2 = none ∧ (splitFirst sep l).1 = l ∨
      ∃ r, (splitFirst sep l).2 = some r ∧ l = (splitFirst sep l).1 ++ sep :: r := by
  induction l with
  | nil => simp [splitFirst]
  | cons c rest ih =>
    by_cases hc : c = sep
    · subst hc
      right
      exact ⟨rest, by simp [splitFirst]⟩
    · rcases ih with ⟨h2, h1⟩ | ⟨r, h2, h1⟩
      · left
        constructor <;> simp [splitFirst, hc, h1, h2]
      · right
        refine ⟨r, ?_, ?_⟩ <;> simp [splitFirst, hc, ← h1, h2]

/-- Splitting into three fields is faithful: the original string is the three
fields joined by single spaces. -/
theorem pySplitSpace2_reconstruct (s p0 p1 p2 : String)
    (h : pySplitSpace2 s = [p0, p1, p2]) :
    s = p0 ++ " " ++ p1 ++ " " ++ p2 := by
  unfold pySplitSpace2 at h
  rcases h0 : splitFirst ' ' s.data with ⟨a0, w0⟩
  rcases w0 with _ | r1
  · simp only [h0] at h; simp at h
  · simp only [h0] at h
    rcases h1 : splitFirst ' ' r1 with ⟨a1, w1⟩
    rcases w1 with _ | r2
    · simp only [h1] at h; simp at h
    · simp only [h1] at h
      simp only [List.cons.injEq, and_true] at h
      obtain ⟨e0, e1, e2⟩ := h
      rcases splitFirst_append ' ' s.data with ⟨hn, _⟩ | ⟨r, hsome, heq⟩
      · rw [h0] at hn; simp at hn
      · rw [h0] at hsome heq
        simp only at hsome heq
        cases hsome
        rcases splitFirst_append ' ' r1 with ⟨hn, _⟩ | ⟨r', hsome', heq'⟩
        · rw [h1] at hn; simp at hn
        · rw [h1] at hsome' heq'
          simp only at hsome' heq'
          cases hsome'
          subst e0 e1 e2
          apply String.ext
          simp only [String.data_append]
          simp [heq, heq']

theorem get_zero_of_eq_cons {α : Type} {l : List α} {c : α} {cs : List α}
    (h : l = c :: cs) (hl : 0 < l.length) : l.get ⟨0, hl⟩ = c := by
  subst h; rfl

theorem pyStripL_idem (l : List Char) : pyStripL (pyStripL l) = pyStripL l := by
  unfold pyStripL
  have h1 : List.dropWhile pyIsSpace
      (List.rdropWhile pyIsSpace (l.dropWhile pyIsSpace)) =
      List.rdropWhile pyIsSpace (l.dropWhile pyIsSpace) := by
    rw [List.dropWhile_eq_self_iff]
    obtain ⟨t, ht⟩ := List.rdropWhile_prefix (p := pyIsSpace)
      (l := l.dropWhile pyIsSpace)
    rcases hrd : List.rdropWhile pyIsSpace (l.dropWhile pyIsSpace) with _ | ⟨c, cs⟩
    · intro hl; simp at hl
    · intro hl
      rw [hrd] at ht
      have hdw : l.dropWhile pyIsSpace = c :: (cs ++ t) := by
        rw [← ht]; simp
      have hlen : 0 < (l.dropWhile pyIsSpace).length := by rw [hdw]; simp
      have hnp := List.dropWhile_get_zero_not pyIsSpace l hlen
      rw [get_zero_of_eq_cons hdw hlen] at hnp
      exact hnp
  rw [h1, List.rdropWhile_idempotent]

theorem pyStrip_idem (s : String) : pyStrip (pyStrip s) = pyStrip s := by
  show String.mk (pyStripL (pyStripL s.data)) = String.mk (pyStripL s.data)
  rw [pyStripL_idem]

/-! ## `fractions.Fraction.limit_denominator` (CPython `fractions.py`) -/

/-- Python `Fraction(n, d)` for an integer pair: the normalized rational
`n / d` (the call sites below always pass a positive `d`). -/
def ratOfIntPair (n d : ℤ) : ℚ :=
  if 0 ≤ d then mkRat n d.toNat else mkRat (-n) (-d).toNat

/-- The `while True:` loop of CPython's `Fraction.limit_denominator`, with a
fuel argument for structural termination (each iteration strictly decreases
`d`, so `x.den + 1` units of fuel always suffice; the fuel-out and `d = 0`
branches are unreachable from the states `limit_denominator` passes in, which
is proved below).  State and update order follow `fractions.py`:
`a = n // d; q2 = q0 + a * q1; break if q2 > max; shift; n, d = d, n - a * d`.
`Int.ediv`/`Int.emod` agree with Python `//`/`%` for the positive `d` that
occur. -/
def ldLoop (maxd : ℕ) : ℕ → ℤ × ℤ × ℤ × ℤ × ℤ × ℤ → ℤ × ℤ × ℤ × ℤ × ℤ × ℤ
  | 0, st => st
  | fuel + 1, (p0, q0, p1, q1, n, d) =>
    if d = 0 then (p0, q0, p1, q1, n, d)
    else
      let a := n / d
      let q2 := q0 + a * q1
      if (maxd : ℤ) < q2 then (p0, q0, p1, q1, n, d)
      else ldLoop maxd fuel (p1, q1, p0 + a * p1, q2, d, n - a * d)

/-- `Fraction.limit_denominator(maxd)` from CPython `fractions.py`: returns the
fraction itself when its denominator is already within the bound, otherwise
runs the continued-fraction loop and returns the closer of the two candidate
approximations, preferring `p1/q1` on ties (CPython computes the same
comparison through an integer identity). -/
def limit_denominator (x : ℚ) (maxd : ℕ) : ℚ :=
  if x.den ≤ maxd then x
  else
    match ldLoop maxd (x.den + 1) (0, 1, 1, 0, x.num, (x.den : ℤ)) with
    | (p0, q0, p1, q1, _, _) =>
      let k := ((maxd : ℤ) - q0) / q1
      let bound1 := ratOfIntPair (p0 + k * p1) (q0 + k * q1)
      let bound2 := ratOfIntPair p1 q1
      if |bound2 - x| ≤ |bound1 - x| then bound2 else bound1

/-! ## `measurement_converter.convert_to_fraction`, lines 27-48 -/

/-- `convert_to_fraction` from `src/measurement_converter.py`: limit the
denominator (default bound 16), render whole numbers bare, improper fractions
as a mixed number `whole remainder/denominator`, and proper fractions as
`num/den`.  The modelled amounts are always exact rationals, for which
`Fraction(amount)` cannot raise, so the `except (ValueError,
ZeroDivisionError)` fallback to `str(amount)` is unreachable here.
`renderMixed` is the rendering applied to the denominator-limited fraction. -/
def renderMixed (fraction : ℚ) : String :=
  if fraction.den = 1 then intStr fraction.num
  else if (fraction.den : ℤ) < fraction.num then
    let whole_number := fraction.num / (fraction.den : ℤ)
    let remainder := fraction.num % (fraction.den : ℤ)
    if remainder = 0 then intStr whole_number
    else intStr whole_number ++ " " ++ ratStr (mkRat remainder fraction.den)
  else ratStr fraction

def convert_to_fraction (amount : ℚ) (max_denominator : ℕ) : String :=
  renderMixed (limit_denominator amount max_denominator)

/-! ## `measurement_converter.standardize_ingredient`, lines 51-74 -/

/-- One pass of `re.sub(r"\bof\b", "", name)`: remove every non-overlapping
occurrence of the word `of` delimited by word boundaries of the original
string; `prev` is the character before the current scan position. -/
def subWordOfAux : Option Char → List Char → List Char
  | prev, 'o' :: 'f' :: rest =>
    if (match prev with | none => true | some c => !isWordChar c) &&
       (match rest with | [] => true | c :: _ => !isWordChar c) then
      subWordOfAux (some 'f') rest
    else 'o' :: subWordOfAux (some 'o') ('f' :: rest)
  | _, c :: rest => c :: subWordOfAux (some c) rest
  | _, [] => []

/-- `re.sub(r"\bof\b", "", name)`. -/
def subWordOf (l : List Char) : List Char := subWordOfAux none l

/-- `re.sub(r"[^\w\s]", "", name)`: delete every character that is neither a
word character nor whitespace. -/
def depunct (l : List Char) : List Char :=
  l.filter (fun c => isWordChar c || pyIsSpace c)

/-- Emit a finished whitespace run (held in reverse): a run of two or more
whitespace characters becomes a single space, shorter runs are kept. -/
def flushWsRun (pend : List Char) : List Char :=
  if 2 ≤ pend.length then [' '] else pend.reverse

/-- `re.sub(r"\s{2,}", " ", name)`: replace each maximal run of two or more
whitespace characters by one space. -/
def collapseWsAux : List Char → List Char → List Char
  | pend, [] => flushWsRun pend
  | pend, c :: rest =>
    if pyIsSpace c then collapseWsAux (c :: pend) rest
    else flushWsRun pend ++ c :: collapseWsAux [] rest

/-- `re.sub(r"\s{2,}", " ", name)`. -/
def collapseWs (l : List Char) : List Char := collapseWsAux [] l

/-- The name-cleaning pipeline of `standardize_ingredient`:
`name = parts[2].strip()`, then the three `re.sub` calls, then `.strip()`. -/
def cleanName (s : String) : String :=
  ⟨pyStripL (collapseWs (depunct (subWordOf (pyStripL s.data))))⟩

/-- `standardize_ingredient` from `src/measurement_converter.py`.  The result
is `Except` because the code catches only `ValueError` and `SyntaxError`
around `eval(parts[0])`; any other exception (for example `NameError` from a
word amount, or `ZeroDivisionError` from `1/0`) escapes to the caller. -/
def standardize_ingredient (ingredient : String) : Except PyExc String :=
  let parts := pySplitSpace2 ingredient
  if parts.length < 3 then .ok ingredient
  else
    match parts with
    | [p0, p1, p2] =>
      match evalAmountTok p0 with
      | .error .valueErr => .ok ingredient
      | .error .synErr => .ok ingredient
      | .error e => .error e
      | .ok amount =>
        let unit := pyLower (pyStrip p1)
        let name := cleanName p2
        let formatted_amount := convert_to_fraction amount 16
        .ok (formatted_amount ++ " " ++ unit ++ " " ++ name)
    | _ => .ok ingredient

/-! ## `measurement_converter.generate_tags`, lines 77-94 -/

/-- `IGNORED_INGREDIENTS` from `src/measurement_converter.py` (a Python set;
only `any`-membership over it is used, so the iteration order is
irrelevant). -/
def IGNORED_INGREDIENTS : List String :=
  ["salt", "pepper", "flour", "sugar", "butter", "oil", "water", "milk",
   "egg", "eggs", "vanilla", "yeast", "baking soda", "baking powder", "cream",
   "parsley", "stock", "broth", "spices", "olive oil", "garlic", "panko",
   "onion", "green onions", "half and half", "carrots", "spinach"]

/-- `generate_tags` from `src/measurement_converter.py`: for each ingredient
take everything after the first space (`partition(" ")[2]`), strip and
lower-case it, drop it when any stop-listed term occurs in it as a substring,
delete punctuation, and collect the non-empty survivors as a sorted
duplicate-free list (`sorted(set(tags))`). -/
def generate_tags (ingredients : List String) : List String :=
  (ingredients.foldl
    (fun tags ing =>
      let name0 := (pyStripL (afterFirstSpace ing.data)).map Char.toLower
      if IGNORED_INGREDIENTS.any (fun ig => containsSub name0 ig.data) then tags
      else
        let name1 := pyStripL (depunct name0)
        if name1.isEmpty then tags else insertSortedDedup name1 tags)
    []).map (fun l => String.mk l)

/-! ## `app.fraction_formatter`, src/app.py lines 50-62 -/

/-- A value a template can pass to the `fraction` filter: `None`, a number
(exact rational), or a string. -/
inductive PyVal where
  | none
  | num (q : ℚ)
  | str (s : String)
deriving DecidableEq

/-- Python `str()` of a template value, as used by the `except:` fallback. -/
def pyValStr : PyVal → String
  | .none => "None"
  | .num q => ratStr q
  | .str s => s

/-- The fraction rendering shared by `fraction_formatter`'s success path:
`Fraction(str(amount)).limit_denominator(8)`, then bare whole numbers, mixed
numbers for improper fractions, `str(fraction)` otherwise. -/
def formatFrac8 (q : ℚ) : String :=
  let fraction := limit_denominator q 8
  if fraction.den = 1 then intStr fraction.num
  else if (fraction.den : ℤ) < fraction.num then
    intStr (fraction.num / (fraction.den : ℤ)) ++ " " ++
      ratStr (mkRat (fraction.num % (fraction.den : ℤ)) fraction.den)
  else ratStr fraction

/-- The `try:` block of `fraction_formatter`: `None` and numeric zero render
as `""`; a number is converted exactly (`Fraction(str(amount))` round-trips
the modelled exact values); a string is parsed by the `Fraction` constructor
and raises `ValueError` when malformed. -/
def fraction_formatter_body (amount : PyVal) : Except PyExc String :=
  match amount with
  | .none => .ok ""
  | .num q => .ok (if q = 0 then "" else formatFrac8 q)
  | .str s =>
    match pyFractionParse s with
    | some q => .ok (formatFrac8 q)
    | none => .error .valueErr

/-- `fraction_formatter` from `src/app.py`: the whole body is wrapped in
`try: ... except: return str(amount)`, so every exception becomes the string
form of the original value and the filter is total. -/
def fraction_formatter (amount : PyVal) : String :=
  match fraction_formatter_body amount with
  | .ok s => s
  | .error _ => pyValStr amount

/-! ## Shopping-list persistence model (src/app.py lines 30-36, 168-171, 234-249) -/

/-- A persisted `ShoppingItem` row. -/
structure ShoppingItem where
  name : String
  quantity : ℚ
  unit : String
  category : String
  user_id : ℕ
deriving DecidableEq

/-- The `POST` loop of `recipe_details` (src/app.py lines 168-171): for every
ingredient of the recipe, unconditionally `db.session.add` a fresh
`ShoppingItem` row built from `split_ingredient` and `get_category`. -/
def add_recipe_ingredients (ingredients : List String) (uid : ℕ)
    (items : List ShoppingItem) : List ShoppingItem :=
  items ++ ingredients.map (fun ing =>
    let parsed := split_ingredient ing
    { name := parsed.2.2, quantity := parsed.1, unit := parsed.2.1,
      category := get_category parsed.2.2, user_id := uid })

/-- The grouping key used by `share_list` (src/app.py line 238):
`(item.name.lower().strip(), item.unit.lower().strip(), item.category)`. -/
def shareKey (it : ShoppingItem) : String × String × String :=
  (pyStrip (pyLower it.name), pyStrip (pyLower it.unit), it.category)

/-- Add a quantity under a key in an association list, mirroring the
`combined` dict of `share_list`: an existing key accumulates, a new key is
appended (Python dicts preserve insertion order). -/
def assocAdd {K : Type} [DecidableEq K] :
    List (K × ℚ) → K → ℚ → List (K × ℚ)
  | [], k, q => [(k, q)]
  | (k', q') :: rest, k, q =>
    if k' = k then (k', q' + q) :: rest else (k', q') :: assocAdd rest k q

/-- The quantity-combining step of `share_list` (src/app.py lines 236-241):
fold the user's rows into a dict keyed by `shareKey`, summing quantities. -/
def combineQuantities (items : List ShoppingItem) :
    List ((String × String × String) × ℚ) :=
  items.foldl (fun acc it => assocAdd acc (shareKey it) it.quantity) []

/-- Total quantity recorded for a key in a combined list (0 when absent). -/
def lookupQty {K : Type} [DecidableEq K] (l : List (K × ℚ)) (k : K) : ℚ :=
  ((l.filter (fun p => p.1 = k)).map (fun p => p.2)).sum

/-! ## Shared case analysis of `split_ingredient` -/

theorem split_ingredient_shape (s : String) :
    ((pySplitSpace2 s).length < 3 ∧ split_ingredient s = (1, "", s)) ∨
    (∃ p0 p1 p2, pySplitSpace2 s = [p0, p1, p2] ∧
      ((pyFractionParse p0 = none ∧ split_ingredient s = (1, "pcs", s)) ∨
       (∃ q, pyFractionParse p0 = some q ∧
         split_ingredient s = (q, pyStrip p1, pyStrip p2)))) := by
  by_cases hlen : (pySplitSpace2 s).length < 3
  · left
    exact ⟨hlen, by simp [split_ingredient, hlen]⟩
  · right
    have h3 : (pySplitSpace2 s).length = 3 := by
      have := pySplitSpace2_length_le s
      omega
    obtain ⟨p0, p1, p2, hps⟩ := List.length_eq_three.mp h3
    refine ⟨p0, p1, p2, hps, ?_⟩
    rcases hp : pyFractionParse p0 with _ | q
    · left
      exact ⟨rfl, by simp [split_ingredient, hps, hp]⟩
    · right
      exact ⟨q, rfl, by simp [split_ingredient, hps, hp]⟩

/-! ## Claim theorems -/

/-- C1: the claim states that `parse` and `standardize` never raise and that
every malformed amount degrades to the documented fallback.  `split_ingredient`
does satisfy this (its bare `except:` catches everything), but
`standardize_ingredient` catches only `ValueError` and `SyntaxError` around
`eval(parts[0])`, so the malformed amount tokens `half` (a name) and `1/0`
escape as `NameError` / `ZeroDivisionError`, contradicting both the claim and
the code's own comments (`# Skip invalid amounts`, `Return as is if the
format is invalid`). -/
theorem C1_standardize_raises :
    standardize_ingredient "half cup sugar" = Except.error PyExc.nameErr ∧
    standardize_ingredient "1/0 cup sugar" = Except.error PyExc.zeroDivErr ∧
    split_ingredient "half cup sugar" = (1, "pcs", "half cup sugar") := by
  decide

/-- C2: the claim states that `generateTags` skips the amount *and the unit*
and that the example tag set includes `"chicken"`.  The code splits with
`ingredient.partition(" ")`, which removes only the amount token, so the unit
stays inside the tag: the example yields `["lb chicken"]` and the element
`"chicken"` is not in the result, contradicting the claim and the code's own
comment (`# Extract name only, skipping amount and unit`).  The stop-listed
`flour`/`garlic` exclusions do hold. -/
theorem C2_tags_keep_unit :
    generate_tags ["1 cup flour", "2 cloves garlic", "1 lb chicken"] = ["lb chicken"] ∧
    "flour" ∉ generate_tags ["1 cup flour", "2 cloves garlic", "1 lb chicken"] ∧
    "garlic" ∉ generate_tags ["1 cup flour", "2 cloves garlic", "1 lb chicken"] ∧
    "chicken" ∉ generate_tags ["1 cup flour", "2 cloves garlic", "1 lb chicken"] := by
  decide

/-- C3 counterexample: the claim says a zero amount is never rendered as the
literal string `"0"`, but `convert_to_fraction(0)` returns exactly `"0"`
(`Fraction(0)` has denominator 1, so `str(numerator)` is `"0"`). -/
theorem C3_zero_renders_zero : convert_to_fraction 0 16 = "0" := by decide

/-- C3 amended: `fraction_formatter` renders `None` and a zero amount as `""`,
while `convert_to_fraction` renders a zero amount as `"0"`; both render whole
numbers without a denominator and improper fractions as a mixed number
`whole remainder/denominator`, so `toDisplayFraction(0.5, 8) = "1/2"` and
`toDisplayFraction(1.5, 8) = "1 1/2"` hold in both variants. -/
theorem C3_amended :
    fraction_formatter PyVal.none = "" ∧
    fraction_formatter (PyVal.num 0) = "" ∧
    convert_to_fraction 0 16 = "0" ∧
    fraction_formatter (PyVal.num (mkRat 1 2)) = "1/2" ∧
    convert_to_fraction (mkRat 1 2) 16 = "1/2" ∧
    fraction_formatter (PyVal.num (mkRat 3 2)) = "1 1/2" ∧
    convert_to_fraction (mkRat 3 2) 16 = "1 1/2" ∧
    (∀ q : ℚ, q ≠ 0 → (limit_denominator q 8).den = 1 →
      fraction_formatter (PyVal.num q) = intStr (limit_denominator q 8).num) ∧
    (∀ q : ℚ, q ≠ 0 → (limit_denominator q 8).den ≠ 1 →
      ((limit_denominator q 8).den : ℤ) < (limit_denominator q 8).num →
      fraction_formatter (PyVal.num q) =
        intStr ((limit_denominator q 8).num / ((limit_denominator q 8).den : ℤ))
          ++ " " ++
          ratStr (mkRat ((limit_denominator q 8).num %
            ((limit_denominator q 8).den : ℤ)) (limit_denominator q 8).den)) ∧
    (∀ q : ℚ, (limit_denominator q 16).den = 1 →
      convert_to_fraction q 16 = intStr (limit_denominator q 16).num) ∧
    (∀ q : ℚ, (limit_denominator q 16).den ≠ 1 →
      ((limit_denominator q 16).den : ℤ) < (limit_denominator q 16).num →
      (limit_denominator q 16).num % ((limit_denominator q 16).den : ℤ) ≠ 0 →
      convert_to_fraction q 16 =
        intStr ((limit_denominator q 16).num / ((limit_denominator q 16).den : ℤ))
          ++ " " ++
          ratStr (mkRat ((limit_denominator q 16).num %
            ((limit_denominator q 16).den : ℤ)) (limit_denominator q 16).den)) := by
  refine ⟨by decide, by decide, by decide, by decide, by decide, by decide, by decide,
    ?_, ?_, ?_, ?_⟩
  · intro q hq hden
    simp [fraction_formatter, fraction_formatter_body, formatFrac8, hq, hden]
  · intro q hq hden hlt
    simp only [fraction_formatter, fraction_formatter_body, formatFrac8]
    rw [if_neg hq, if_neg hden, if_pos hlt]
  · intro q hden
    simp [convert_to_fraction, renderMixed, hden]
  · intro q hden hlt hrem
    simp only [convert_to_fraction, renderMixed]
    rw [if_neg hden, if_pos hlt, if_neg hrem]

/-- C3 witness: the whole-number and mixed-number clauses of `C3_amended`
applied at the concrete amounts 5 and 5/2 with the bound 8. -/
theorem C3_amended_witness :
    ((5 : ℚ) ≠ 0 ∧ (limit_denominator (5 : ℚ) 8).den = 1 ∧
      fraction_formatter (PyVal.num 5) = intStr (limit_denominator (5 : ℚ) 8).num) ∧
    (mkRat 5 2 ≠ 0 ∧ (limit_denominator (mkRat 5 2) 8).den ≠ 1 ∧
      ((limit_denominator (mkRat 5 2) 8).den : ℤ) < (limit_denominator (mkRat 5 2) 8).num ∧
      fraction_formatter (PyVal.num (mkRat 5 2)) =
        intStr ((limit_denominator (mkRat 5 2) 8).num /
            ((limit_denominator (mkRat 5 2) 8).den : ℤ))
          ++ " " ++
          ratStr (mkRat ((limit_denominator (mkRat 5 2) 8).num %
            ((limit_denominator (mkRat 5 2) 8).den : ℤ))
            (limit_denominator (mkRat 5 2) 8).den)) :=
  ⟨⟨by decide, by decide,
      (C3_amended.2.2.2.2.2.2.2.1) 5 (by decide) (by decide)⟩,
   ⟨by decide, by decide, by decide,
      (C3_amended.2.2.2.2.2.2.2.2.1) (mkRat 5 2) (by decide) (by decide) (by decide)⟩⟩

/-- C4 counterexample: the claim says the parsed amount is always
non-negative, but `split_ingredient("-2 cups sugar")` returns amount `-2`
(the `Fraction` constructor accepts a sign, and nothing clamps the value). -/
theorem C4_negative_amount :
    split_ingredient "-2 cups sugar" = (-2, "cups", "sugar") ∧ ((-2 : ℚ) < 0) := by
  decide

/-- C4 amended: the amount equals the parsed value of the leading token (so it
is negative exactly when that token denotes a negative number; both fallback
amounts are the positive `1`); the unit component is always trimmed of
surrounding whitespace; the name is trimmed on a successful three-field parse
and is the whole original line on either fallback, and parse failure always
yields one of the two defined fallback triples instead of propagating. -/
theorem C4_amended (s : String) :
    ((pySplitSpace2 s).length < 3 → split_ingredient s = (1, "", s)) ∧
    (∀ p0 p1 p2, pySplitSpace2 s = [p0, p1, p2] →
      (pyFractionParse p0 = none → split_ingredient s = (1, "pcs", s)) ∧
      (∀ q, pyFractionParse p0 = some q →
        split_ingredient s = (q, pyStrip p1, pyStrip p2))) ∧
    (∀ a u n, split_ingredient s = (a, u, n) → pyStrip u = u) ∧
    (∀ a u n, split_ingredient s = (a, u, n) → a < 0 →
      ∃ p0 p1 p2, pySplitSpace2 s = [p0, p1, p2] ∧ pyFractionParse p0 = some a) := by
  refine ⟨?_, ?_, ?_, ?_⟩
  · intro hlen
    simp [split_ingredient, hlen]
  · intro p0 p1 p2 hps
    constructor
    · intro hp
      simp [split_ingredient, hps, hp]
    · intro q hp
      simp [split_ingredient, hps, hp]
  · intro a u n h
    rcases split_ingredient_shape s with ⟨_, he⟩ | ⟨p0, p1, p2, hps, ⟨_, he⟩ | ⟨q, _, he⟩⟩ <;>
      rw [he] at h <;> cases h
    · decide
    · decide
    · exact pyStrip_idem p1
  · intro a u n h hneg
    rcases split_ingredient_shape s with ⟨_, he⟩ | ⟨p0, p1, p2, hps, ⟨hp, he⟩ | ⟨q, hp, he⟩⟩ <;>
      rw [he] at h <;> cases h
    · exact absurd hneg (by norm_num)
    · exact absurd hneg (by norm_num)
    · exact ⟨p0, p1, p2, hps, hp⟩

/-- C4 witness: `C4_amended` applied at the line `" sugar "`, whose three
fields are `""`, `"sugar"`, `""`; the amount token fails to parse, so the
amount-parse fallback triple is returned, with the untrimmed original line as
the name. -/
theorem C4_amended_witness :
    pySplitSpace2 " sugar " = ["", "sugar", ""] ∧
    pyFractionParse "" = none ∧
    split_ingredient " sugar " = (1, "pcs", " sugar ") :=
  ⟨by decide, by decide,
    ((C4_amended " sugar ").2.1 "" "sugar" "" (by decide)).1 (by decide)⟩

/-- Structure of the `get_category` loop over an arbitrary table: either no
entry matches and the result is `"Other"`, or the result is the category of
the first matching entry. -/
theorem firstMatchingCategory_spec (nm : String) (L : List (String × List String)) :
    (firstMatchingCategory nm L = "Other" ∧ ∀ p ∈ L, catHit nm p.2 = false) ∨
    (∃ j, ∃ hj : j < L.length,
      catHit nm (L.get ⟨j, hj⟩).2 = true ∧
      (∀ j', ∀ hj' : j' < L.length, j' < j → catHit nm (L.get ⟨j', hj'⟩).2 = false) ∧
      firstMatchingCategory nm L = (L.get ⟨j, hj⟩).1) := by
  induction L with
  | nil => exact Or.inl ⟨rfl, by simp⟩
  | cons hd rest ih =>
    by_cases h : catHit nm hd.2
    · right
      refine ⟨0, by simp, by simpa using h, by omega, ?_⟩
      simp [firstMatchingCategory, h]
    · have hfmc : firstMatchingCategory nm (hd :: rest) = firstMatchingCategory nm rest := by
        rcases hd with ⟨cat, kws⟩
        simp only [firstMatchingCategory]
        rw [if_neg (by simpa using h)]
      rcases ih with ⟨hother, hall⟩ | ⟨j, hj, hhit, hbefore, heq⟩
      · left
        refine ⟨by rw [hfmc, hother], ?_⟩
        intro p hp
        rcases List.mem_cons.mp hp with rfl | hp'
        · simpa using h
        · exact hall p hp'
      · right
        refine ⟨j + 1, by simpa using Nat.succ_lt_succ hj, by simpa using hhit, ?_, ?_⟩
        · intro j' hj' hlt
          rcases j' with _ | j''
          · simpa using h
          · exact hbefore j'' (by simpa using Nat.lt_of_succ_lt_succ hj') (by omega)
        · rw [hfmc, heq]
          simp

/-- C5: `categorize("chicken breast") = Meat/Seafood` and
`categorize("unobtainium") = Other`; in general `get_category` lower-cases the
name and walks the category table in its fixed order: when no entry's keyword
occurs as a substring the result is `"Other"`, and whenever some entry at
index `j` matches, the result is the category of an entry at index `i ≤ j`
that matches while every earlier entry does not — the earliest matching
category wins. -/
theorem C5_get_category :
    get_category "chicken breast" = "Meat/Seafood" ∧
    get_category "unobtainium" = "Other" ∧
    ∀ nm : String,
      ((∀ p ∈ categoriesTable, catHit (pyLower nm) p.2 = false) →
        get_category nm = "Other") ∧
      (∀ j, ∀ hj : j < categoriesTable.length,
        catHit (pyLower nm) (categoriesTable.get ⟨j, hj⟩).2 = true →
        ∃ i, ∃ hi : i < categoriesTable.length, i ≤ j ∧
          catHit (pyLower nm) (categoriesTable.get ⟨i, hi⟩).2 = true ∧
          (∀ i', ∀ hi' : i' < categoriesTable.length, i' < i →
            catHit (pyLower nm) (categoriesTable.get ⟨i', hi'⟩).2 = false) ∧
          get_category nm = (categoriesTable.get ⟨i, hi⟩).1) := by
  refine ⟨by decide, by decide, ?_⟩
  intro nm
  constructor
  · intro hall
    rcases firstMatchingCategory_spec (pyLower nm) categoriesTable with
      ⟨heq, _⟩ | ⟨j, hj, hhit, _, _⟩
    · exact heq
    · exact absurd hhit (by rw [hall _ (List.get_mem _ _ _)]; simp)
  · intro j hj hhit
    rcases firstMatchingCategory_spec (pyLower nm) categoriesTable with
      ⟨_, hall⟩ | ⟨i, hi, hihit, hbefore, heq⟩
    · exact absurd hhit (by rw [hall _ (List.get_mem _ _ _)]; simp)
    · have hile : i ≤ j := by
        by_contra hgt
        have := hbefore j hj (by omega)
        rw [this] at hhit
        cases hhit
      exact ⟨i, hi, hile, hihit, hbefore, heq⟩

/-- C5 witness: the first-match clause of `C5_get_category` applied at
`"chicken breast"` with the matching entry at index 1 (`Meat/Seafood`), and
the no-match clause applied at `"unobtainium"`. -/
theorem C5_witness :
    (catHit (pyLower "chicken breast") (categoriesTable.get ⟨1, by decide⟩).2 = true ∧
      ∃ i, ∃ hi : i < categoriesTable.length, i ≤ 1 ∧
        catHit (pyLower "chicken breast") (categoriesTable.get ⟨i, hi⟩).2 = true ∧
        (∀ i', ∀ hi' : i' < categoriesTable.length, i' < i →
          catHit (pyLower "chicken breast") (categoriesTable.get ⟨i', hi'⟩).2 = false) ∧
        get_category "chicken breast" = (categoriesTable.get ⟨i, hi⟩).1) ∧
    ((∀ p ∈ categoriesTable, catHit (pyLower "unobtainium") p.2 = false) ∧
      get_category "unobtainium" = "Other") :=
  ⟨⟨by decide,
      ((C5_get_category.2.2 "chicken breast").2 1 (by decide) (by decide))⟩,
   ⟨by decide,
      ((C5_get_category.2.2 "unobtainium").1 (by decide))⟩⟩

/-- C9: `parse("2 cups sugar") = (2, "cups", "sugar")`; the splitter yields at
most three segments; with fewer than three segments the caller is not failed:
the fallback triple `(1, "", line)` is returned, whose amount 1 is non-zero,
whose unit is empty, and whose name is the original line — in particular
`parse("sugar") = (1, "", "sugar")`. -/
theorem C9_split_ingredient :
    split_ingredient "2 cups sugar" = (2, "cups", "sugar") ∧
    split_ingredient "sugar" = (1, "", "sugar") ∧
    (∀ s, (pySplitSpace2 s).length ≤ 3) ∧
    (∀ s, (pySplitSpace2 s).length < 3 →
      split_ingredient s = (1, "", s) ∧ ((1 : ℚ) ≠ 0)) := by
  refine ⟨by decide, by decide, pySplitSpace2_length_le, ?_⟩
  intro s hlen
  exact ⟨by simp [split_ingredient, hlen], by norm_num⟩

/-- C9 witness: `C9_split_ingredient` applied at the single-token line
`"sugar"`. -/
theorem C9_witness :
    (pySplitSpace2 "sugar").length < 3 ∧
    split_ingredient "sugar" = (1, "", "sugar") ∧ ((1 : ℚ) ≠ 0) :=
  ⟨by decide, C9_split_ingredient.2.2.2 "sugar" (by decide)⟩

/-- C10: the template fraction filter is total — for every input value
(`None`, numbers including zero and negatives, arbitrary strings) the body
either succeeds and its string is returned, or raises and the `except:`
fallback returns the string form of the original value; concretely the
unconvertible string `"abc"` comes back unchanged, `None` and `0` render as
`""`, and `-3/2` renders as `"-3/2"`. -/
theorem C10_formatter_total :
    (∀ v : PyVal,
      (∃ s, fraction_formatter_body v = Except.ok s ∧ fraction_formatter v = s) ∨
      (∃ e, fraction_formatter_body v = Except.error e ∧
        fraction_formatter v = pyValStr v)) ∧
    fraction_formatter (PyVal.str "abc") = "abc" ∧
    fraction_formatter PyVal.none = "" ∧
    fraction_formatter (PyVal.num 0) = "" ∧
    fraction_formatter (PyVal.num (mkRat (-3) 2)) = "-3/2" := by
  refine ⟨?_, by decide, by decide, by decide, by decide⟩
  intro v
  rcases h : fraction_formatter_body v with e | s
  · right
    exact ⟨e, rfl, by simp [fraction_formatter, h]⟩
  · left
    exact ⟨s, rfl, by simp [fraction_formatter, h]⟩

/-- C6 counterexample: adding the same `(name, unit)` twice does not increase
the first row's quantity — it creates a second independent row.  Posting the
one-ingredient recipe `"1 cup sugar"` twice leaves two rows of quantity 1
each with key `("sugar", "cup")`, refuting upsert-by-`(name, unit)`
persistence. -/
theorem C6_no_upsert :
    add_recipe_ingredients ["1 cup sugar"] 0
        (add_recipe_ingredients ["1 cup sugar"] 0 []) =
      [⟨"sugar", 1, "cup", "Pantry", 0⟩, ⟨"sugar", 1, "cup", "Pantry", 0⟩] ∧
    (add_recipe_ingredients ["1 cup sugar"] 0
        (add_recipe_ingredients ["1 cup sugar"] 0 [])).length = 2 := by
  decide

theorem lookupQty_cons {K : Type} [DecidableEq K] (a : K) (b : ℚ)
    (rest : List (K × ℚ)) (k' : K) :
    lookupQty ((a, b) :: rest) k' = (if a = k' then b else 0) + lookupQty rest k' := by
  by_cases h : a = k'
  · simp [lookupQty, List.filter_cons, h]
  · simp [lookupQty, List.filter_cons, h]

theorem lookupQty_assocAdd {K : Type} [DecidableEq K]
    (l : List (K × ℚ)) (k k' : K) (q : ℚ) :
    lookupQty (assocAdd l k q) k' = lookupQty l k' + (if k = k' then q else 0) := by
  induction l with
  | nil =>
    rw [show assocAdd ([] : List (K × ℚ)) k q = [(k, q)] from rfl, lookupQty_cons]
    simp [lookupQty]
  | cons hd rest ih =>
    rcases hd with ⟨a, b⟩
    by_cases ha : a = k
    · subst ha
      rw [show assocAdd ((a, b) :: rest) a q = (a, b + q) :: rest from by
        simp [assocAdd]]
      rw [lookupQty_cons, lookupQty_cons]
      by_cases h : a = k'
      · simp only [if_pos h]; ring
      · simp only [if_neg h]; ring
    · rw [show assocAdd ((a, b) :: rest) k q = (a, b) :: assocAdd rest k q from by
        simp [assocAdd, ha]]
      rw [lookupQty_cons, lookupQty_cons, ih]
      ring

theorem lookupQty_combine_fold (items : List ShoppingItem) :
    ∀ (acc : List ((String × String × String) × ℚ)) (k : String × String × String),
      lookupQty (items.foldl (fun acc it => assocAdd acc (shareKey it) it.quantity) acc) k =
        lookupQty acc k +
          ((items.filter (fun it => shareKey it = k)).map (fun it => it.quantity)).sum := by
  induction items with
  | nil => intro acc k; simp
  | cons hd rest ih =>
    intro acc k
    rw [List.foldl_cons, ih, lookupQty_assocAdd, List.filter_cons]
    by_cases h : shareKey hd = k
    · simp [h]
      ring
    · simp [h]

/-- C6 amended: the persisted shopping list does not upsert — every added
ingredient appends a fresh row, so a recurring `(name, unit)` pair yields
duplicate rows; accumulation by quantity happens only when `share_list`
builds the share text, where rows are combined by the key
`(name.lower().strip(), unit.lower().strip(), category)` and the combined
quantity for each key is the sum of the quantities of all matching rows —
for the duplicated `"1 cup sugar"` rows, a single entry of quantity 2. -/
theorem C6_amended :
    (∀ ings uid items,
      (add_recipe_ingredients ings uid items).length = items.length + ings.length) ∧
    (∀ (items : List ShoppingItem) (k : String × String × String),
      lookupQty (combineQuantities items) k =
        ((items.filter (fun it => shareKey it = k)).map (fun it => it.quantity)).sum) ∧
    combineQuantities
        (add_recipe_ingredients ["1 cup sugar"] 0
          (add_recipe_ingredients ["1 cup sugar"] 0 [])) =
      [(("sugar", "cup", "Pantry"), 2)] := by
  refine ⟨?_, ?_, ?_⟩
  · intro ings uid items
    simp [add_recipe_ingredients]
  · intro items k
    have h := lookupQty_combine_fold items [] k
    simpa [combineQuantities, lookupQty] using h
  · have h2 : add_recipe_ingredients ["1 cup sugar"] 0
        (add_recipe_ingredients ["1 cup sugar"] 0 []) =
        [⟨"sugar", 1, "cup", "Pantry", 0⟩, ⟨"sugar", 1, "cup", "Pantry", 0⟩] := by decide
    rw [h2]
    have hkey : shareKey ⟨"sugar", 1, "cup", "Pantry", 0⟩ = ("sugar", "cup", "Pantry") := by
      decide
    simp [combineQuantities, assocAdd, hkey]
    norm_num

/-- C7 counterexample: the already-standardized string
`"1 1/2 o.f sugar"` (it is `standardize("3/2 o.f sugar")`) is not a fixed
point of a further pass: re-splitting puts the old unit `o.f` into the name
position, punctuation stripping turns it into the word `of`, and the next
pass deletes that word — so `standardize(standardize(x)) ≠ standardize(x)`
for the already-standardized `x = "1 1/2 o.f sugar"`. -/
theorem C7_not_idempotent :
    standardize_ingredient "3/2 o.f sugar" = Except.ok "1 1/2 o.f sugar" ∧
    standardize_ingredient "1 1/2 o.f sugar" = Except.ok "1 1/2 of sugar" ∧
    standardize_ingredient "1 1/2 of sugar" = Except.ok "1 1/2 sugar" ∧
    ("1 1/2 of sugar" : String) ≠ "1 1/2 sugar" := by
  decide

/-- C7 amended: `standardize` is the identity — hence idempotent — on every
well-formed ingredient line that is fully standardized, meaning: its three
space-separated fields are an amount token that re-renders to itself
(a canonical whole number or proper fraction), a unit already trimmed and
lower-cased, and a name unchanged by the word-`of`/punctuation/whitespace
cleaning.  Already-standardized strings outside this set (mixed amount with a
punctuated unit, or a name containing the word `of`) are changed by a second
pass, as the counterexample shows. -/
theorem C7_amended (s p0 p1 p2 : String) (q : ℚ)
    (hsplit : pySplitSpace2 s = [p0, p1, p2])
    (heval : evalAmountTok p0 = Except.ok q)
    (hamt : convert_to_fraction q 16 = p0)
    (hunit : pyLower (pyStrip p1) = p1)
    (hname : cleanName p2 = p2) :
    standardize_ingredient s = Except.ok s ∧
    (standardize_ingredient s).bind standardize_ingredient = standardize_ingredient s := by
  have hs : standardize_ingredient s =
      Except.ok (convert_to_fraction q 16 ++ " " ++ pyLower (pyStrip p1) ++ " " ++
        cleanName p2) := by
    simp [standardize_ingredient, hsplit, heval]
  rw [hamt, hunit, hname] at hs
  rw [← pySplitSpace2_reconstruct s p0 p1 p2 hsplit] at hs
  refine ⟨hs, ?_⟩
  rw [hs]
  show standardize_ingredient s = Except.ok s
  exact hs

/-- C7 witness: `C7_amended` applied at the fully standardized line
`"1 cup sugar"`. -/
theorem C7_amended_witness :
    standardize_ingredient "1 cup sugar" = Except.ok "1 cup sugar" ∧
    (standardize_ingredient "1 cup sugar").bind standardize_ingredient =
      standardize_ingredient "1 cup sugar" :=
  C7_amended "1 cup sugar" "1" "cup" "sugar" (mkRat 1 1)
    (by decide) (by decide) (by decide) (by decide) (by decide)

/-! ## Correctness of the `limit_denominator` loop (for claim C8)

The loop state `(p0, q0, p1, q1, n, d)` after at least one iteration carries
the classical continued-fraction invariants below; `N`/`D` are the numerator
and denominator of the input fraction. -/

def LDInv (N D : ℤ) (maxd : ℕ) (p0 q0 p1 q1 n d : ℤ) : Prop :=
  (p1 * q0 - p0 * q1 = 1 ∨ p1 * q0 - p0 * q1 = -1) ∧
  N = p1 * n + p0 * d ∧
  D = q1 * n + q0 * d ∧
  1 ≤ d ∧ d < n ∧
  Int.gcd n d = 1 ∧
  0 ≤ q0 ∧ q0 ≤ q1 ∧ 1 ≤ q1 ∧ q1 ≤ (maxd : ℤ)

theorem ldLoop_spec (maxd : ℕ) (N D : ℤ) (hD : (maxd : ℤ) < D) :
    ∀ (fuel : ℕ) (p0 q0 p1 q1 n d : ℤ),
      LDInv N D maxd p0 q0 p1 q1 n d → d ≤ (fuel : ℤ) →
      ∃ P0 Q0 P1 Q1 n' d',
        ldLoop maxd fuel (p0, q0, p1, q1, n, d) = (P0, Q0, P1, Q1, n', d') ∧
        LDInv N D maxd P0 Q0 P1 Q1 n' d' ∧
        (maxd : ℤ) < Q0 + n' / d' * Q1 := by
  intro fuel
  induction fuel with
  | zero =>
    intro p0 q0 p1 q1 n d hInv hfuel
    exact absurd hfuel (by push_cast; linarith [hInv.2.2.2.1])
  | succ fuel ih =>
    intro p0 q0 p1 q1 n d hInv hfuel
    obtain ⟨hcross, hN, hD', hd1, hdn, hgcd, hq0, hq01, hq1, hq1m⟩ := hInv
    have hdne : d ≠ 0 := by omega
    by_cases hbr : (maxd : ℤ) < q0 + n / d * q1
    · refine ⟨p0, q0, p1, q1, n, d, ?_,
        ⟨hcross, hN, hD', hd1, hdn, hgcd, hq0, hq01, hq1, hq1m⟩, hbr⟩
      simp [ldLoop, hdne, hbr]
    · have hr : n - n / d * d = n % d := by
        have h := Int.ediv_add_emod n d
        rw [Int.mul_comm d (n / d)] at h
        linarith
      have hrnn : 0 ≤ n - n / d * d := by
        rw [hr]; exact Int.emod_nonneg n hdne
      have hrlt : n - n / d * d < d := by
        rw [hr]; exact Int.emod_lt_of_pos n (by omega)
      have ha1 : 1 ≤ n / d := by
        rw [Int.le_ediv_iff_mul_le (by omega : (0 : ℤ) < d)]
        omega
      have hgcd' : Int.gcd d (n - n / d * d) = 1 := by
        rw [Int.gcd_eq_one_iff_coprime] at hgcd ⊢
        have h2 : IsCoprime d n := hgcd.symm
        have h3 := h2.add_mul_right_right (-(n / d))
        have he : n + -(n / d) * d = n - n / d * d := by ring
        rwa [he] at h3
      have hd'1 : 1 ≤ n - n / d * d := by
        rcases eq_or_lt_of_le hrnn with heq0 | hpos
        · exfalso
          have hdvd : d ∣ n := by
            apply Int.dvd_of_emod_eq_zero
            omega
          have hdg : d ∣ (Int.gcd n d : ℤ) := Int.dvd_gcd hdvd dvd_rfl
          rw [hgcd] at hdg
          have hdle : d ≤ 1 := Int.le_of_dvd one_pos hdg
          have hdeq : d = 1 := le_antisymm hdle hd1
          have han : n / d = n := by rw [hdeq, Int.ediv_one]
          have hDq : D = q0 + n / d * q1 := by
            rw [han, hD', hdeq]; ring
          rw [hDq] at hD
          exact hbr hD
        · omega
      have hq1'le : q1 ≤ q0 + n / d * q1 := by
        nlinarith [mul_nonneg (show (0 : ℤ) ≤ n / d - 1 by omega)
          (show (0 : ℤ) ≤ q1 by omega)]
      have hInv' : LDInv N D maxd p1 q1 (p0 + n / d * p1)
          (q0 + n / d * q1) d (n - n / d * d) := by
        refine ⟨?_, by rw [hN]; ring, by rw [hD']; ring, hd'1, hrlt, hgcd',
          by omega, hq1'le, by omega, by omega⟩
        have hc : (p0 + n / d * p1) * q1 - p1 * (q0 + n / d * q1) =
            -(p1 * q0 - p0 * q1) := by ring
        rcases hcross with h | h
        · right; rw [hc, h]
        · left; rw [hc, h]; ring
      have hfuel' : n - n / d * d ≤ (fuel : ℤ) := by
        push_cast at hfuel ⊢
        omega
      obtain ⟨P0, Q0, P1, Q1, n', d', heq, hInvf, hbrk⟩ :=
        ih p1 q1 (p0 + n / d * p1) (q0 + n / d * q1) d
          (n - n / d * d) hInv' hfuel'
      refine ⟨P0, Q0, P1, Q1, n', d', ?_, hInvf, hbrk⟩
      rw [show ldLoop maxd (fuel + 1) (p0, q0, p1, q1, n, d) =
          ldLoop maxd fuel (p1, q1, p0 + n / d * p1,
            q0 + n / d * q1, d, n - n / d * d) from by
        simp [ldLoop, hdne, hbr]]
      exact heq

theorem int_gcd_of_reduced (x : ℚ) : Int.gcd x.num (x.den : ℤ) = 1 := by
  have h := x.reduced
  simpa [Int.gcd] using h

theorem limit_denominator_break (x : ℚ) (maxd : ℕ) (hmaxd : 1 ≤ maxd)
    (hden : maxd < x.den) :
    ∃ p0 q0 p1 q1 n d,
      ldLoop maxd (x.den + 1) (0, 1, 1, 0, x.num, (x.den : ℤ)) =
        (p0, q0, p1, q1, n, d) ∧
      LDInv x.num (x.den : ℤ) maxd p0 q0 p1 q1 n d ∧
      (maxd : ℤ) < q0 + (n / d) * q1 := by
  have hD2 : (2 : ℤ) ≤ (x.den : ℤ) := by
    have : 2 ≤ x.den := by omega
    exact_mod_cast this
  have hDne : ((x.den : ℤ)) ≠ 0 := by omega
  have hgcdX : Int.gcd x.num (x.den : ℤ) = 1 := int_gcd_of_reduced x
  have hrem : x.num - x.num / (x.den : ℤ) * (x.den : ℤ) = x.num % (x.den : ℤ) := by
    have h := Int.ediv_add_emod x.num (x.den : ℤ)
    rw [Int.mul_comm ((x.den : ℤ)) (x.num / (x.den : ℤ))] at h
    linarith
  have hrnn : 0 ≤ x.num - x.num / (x.den : ℤ) * (x.den : ℤ) := by
    rw [hrem]; exact Int.emod_nonneg x.num hDne
  have hrlt : x.num - x.num / (x.den : ℤ) * (x.den : ℤ) < (x.den : ℤ) := by
    rw [hrem]; exact Int.emod_lt_of_pos x.num (by omega)
  have hgcd1 : Int.gcd (x.den : ℤ) (x.num - x.num / (x.den : ℤ) * (x.den : ℤ)) = 1 := by
    rw [Int.gcd_eq_one_iff_coprime] at hgcdX ⊢
    have h2 : IsCoprime ((x.den : ℤ)) x.num := hgcdX.symm
    have h3 := h2.add_mul_right_right (-(x.num / (x.den : ℤ)))
    have he : x.num + -(x.num / (x.den : ℤ)) * (x.den : ℤ) =
        x.num - x.num / (x.den : ℤ) * (x.den : ℤ) := by ring
    rwa [he] at h3
  have hr1 : 1 ≤ x.num - x.num / (x.den : ℤ) * (x.den : ℤ) := by
    rcases eq_or_lt_of_le hrnn with heq0 | hpos
    · exfalso
      have hdvd : ((x.den : ℤ)) ∣ x.num := by
        apply Int.dvd_of_emod_eq_zero
        omega
      have hdg : ((x.den : ℤ)) ∣ (Int.gcd x.num (x.den : ℤ) : ℤ) :=
        Int.dvd_gcd hdvd dvd_rfl
      rw [hgcdX] at hdg
      have := Int.le_of_dvd one_pos hdg
      omega
    · omega
  have hInv1 : LDInv x.num (x.den : ℤ) maxd 1 0 (x.num / (x.den : ℤ)) 1
      (x.den : ℤ) (x.num - x.num / (x.den : ℤ) * (x.den : ℤ)) := by
    refine ⟨Or.inr (by ring), by ring, by ring, hr1, hrlt, hgcd1,
      le_refl 0, by omega, le_refl 1, by exact_mod_cast hmaxd⟩
  have hfuel1 : x.num - x.num / (x.den : ℤ) * (x.den : ℤ) ≤ ((x.den : ℕ) : ℤ) := by
    omega
  obtain ⟨P0, Q0, P1, Q1, n', d', heq, hInvf, hbrk⟩ :=
    ldLoop_spec maxd x.num (x.den : ℤ) (by exact_mod_cast hden) x.den
      1 0 (x.num / (x.den : ℤ)) 1 (x.den : ℤ)
      (x.num - x.num / (x.den : ℤ) * (x.den : ℤ)) hInv1 hfuel1
  refine ⟨P0, Q0, P1, Q1, n', d', ?_, hInvf, hbrk⟩
  rw [← heq]
  have hm1 : ¬ ((maxd : ℤ) < 1 + x.num / (x.den : ℤ) * 0) := by
    omega
  simp only [ldLoop, hDne, if_neg hDne, mul_zero, add_zero, mul_one, zero_add,
    if_neg hm1, if_false]
  rw [if_neg (show ¬ ((maxd : ℤ) < 1) by omega)]

theorem rat_lt_cross {u y : ℚ} (h : u < y) :
    u.num * (y.den : ℤ) < y.num * (u.den : ℤ) := by
  have h' : (u.num : ℚ) / (u.den : ℚ) < (y.num : ℚ) / (y.den : ℚ) := by
    rw [Rat.num_div_den, Rat.num_div_den]
    exact h
  rw [div_lt_div_iff₀ (by exact_mod_cast u.den_pos) (by exact_mod_cast y.den_pos)] at h'
  exact_mod_cast h'

/-- Any rational strictly between two Farey neighbours has denominator at
least the sum of their denominators. -/
theorem rat_mediant_den {u v y : ℚ}
    (hadj : v.num * (u.den : ℤ) - u.num * (v.den : ℤ) = 1)
    (h1 : u < y) (h2 : y < v) : u.den + v.den ≤ y.den := by
  have c1 : u.num * (y.den : ℤ) + 1 ≤ y.num * (u.den : ℤ) := rat_lt_cross h1
  have c2 : y.num * (v.den : ℤ) + 1 ≤ v.num * (y.den : ℤ) := rat_lt_cross h2
  have hu0 : (0 : ℤ) < (u.den : ℤ) := by exact_mod_cast u.den_pos
  have hv0 : (0 : ℤ) < (v.den : ℤ) := by exact_mod_cast v.den_pos
  have t1 : (y.num * (v.den : ℤ) + 1) * (u.den : ℤ) ≤
      v.num * (y.den : ℤ) * (u.den : ℤ) :=
    mul_le_mul_of_nonneg_right c2 (le_of_lt hu0)
  have t2 : u.num * (y.den : ℤ) * (v.den : ℤ) ≤
      (y.num * (u.den : ℤ) - 1) * (v.den : ℤ) :=
    mul_le_mul_of_nonneg_right (by linarith) (le_of_lt hv0)
  have e : (v.num * (u.den : ℤ) - u.num * (v.den : ℤ)) * (y.den : ℤ) =
      (y.den : ℤ) := by rw [hadj]; ring
  have key : ((u.den : ℤ)) + (v.den : ℤ) ≤ (y.den : ℤ) := by nlinarith [t1, t2, e]
  exact_mod_cast key

/-- Between two Farey neighbours `u < X < v`, the distance from `X` to any
rational with denominator at most `maxd` is at least the distance to the
nearer of `u` and `v`, with equality only at `u` or `v` themselves. -/
theorem rat_best_approx {u v X y : ℚ} {maxd : ℕ}
    (hadj : v.num * (u.den : ℤ) - u.num * (v.den : ℤ) = 1)
    (huv : u < X) (hXv : X < v)
    (hsum : maxd < u.den + v.den)
    (hy : y.den ≤ maxd) :
    min |X - u| |X - v| ≤ |X - y| ∧
      (|X - y| = min |X - u| |X - v| → y = u ∨ y = v) := by
  have hXu : 0 < X - u := sub_pos.mpr huv
  have hXv' : 0 < v - X := sub_pos.mpr hXv
  have haXu : |X - u| = X - u := abs_of_pos hXu
  have haXv : |X - v| = v - X := by rw [abs_sub_comm]; exact abs_of_pos hXv'
  rcases le_or_lt y u with hyu | hyu
  · have h2 : |X - y| = X - y := abs_of_pos (by linarith)
    constructor
    · rw [h2]
      calc min |X - u| |X - v| ≤ |X - u| := min_le_left _ _
        _ = X - u := haXu
        _ ≤ X - y := by linarith
    · intro he
      left
      have h3 : X - y ≤ X - u := by
        calc X - y = |X - y| := h2.symm
          _ = min |X - u| |X - v| := he
          _ ≤ |X - u| := min_le_left _ _
          _ = X - u := haXu
      have : u ≤ y := by linarith
      exact le_antisymm hyu this
  · rcases le_or_lt v y with hvy | hvy
    · have h2 : |X - y| = y - X := by
        rw [abs_sub_comm]
        exact abs_of_pos (by linarith)
      constructor
      · rw [h2]
        calc min |X - u| |X - v| ≤ |X - v| := min_le_right _ _
          _ = v - X := haXv
          _ ≤ y - X := by linarith
      · intro he
        right
        have h3 : y - X ≤ v - X := by
          calc y - X = |X - y| := h2.symm
            _ = min |X - u| |X - v| := he
            _ ≤ |X - v| := min_le_right _ _
            _ = v - X := haXv
        have : y ≤ v := by linarith
        exact le_antisymm this hvy
    · exfalso
      have := rat_mediant_den hadj hyu hvy
      omega

theorem rat_lt_iff_cross {u y : ℚ} :
    u < y ↔ u.num * (y.den : ℤ) < y.num * (u.den : ℤ) := by
  constructor
  · exact rat_lt_cross
  · intro h
    have h' : (u.num : ℚ) / (u.den : ℚ) < (y.num : ℚ) / (y.den : ℚ) := by
      rw [div_lt_div_iff₀ (by exact_mod_cast u.den_pos) (by exact_mod_cast y.den_pos)]
      exact_mod_cast h
    rwa [Rat.num_div_den, Rat.num_div_den] at h'

/-- Choosing the closer of two one-sided candidates, preferring the second on
ties, minimises the distance among all rationals with denominator at most
`maxd`; a tie-preference hypothesis transfers to the tie-break guarantee. -/
theorem ld_choose (x B1 B2 r : ℚ) (maxd : ℕ)
    (hr : r = if |B2 - x| ≤ |B1 - x| then B2 else B1)
    (hB1den : B1.den ≤ maxd) (hB2den : B2.den ≤ maxd)
    (hsum : maxd < B1.den + B2.den)
    (horder :
      (B1 < x ∧ x < B2 ∧ B2.num * (B1.den : ℤ) - B1.num * (B2.den : ℤ) = 1) ∨
      (B2 < x ∧ x < B1 ∧ B1.num * (B2.den : ℤ) - B2.num * (B1.den : ℤ) = 1))
    (htie : |x - B1| = |x - B2| → B2.den ≤ B1.den) :
    r.den ≤ maxd ∧ (∀ y : ℚ, y.den ≤ maxd → |x - r| ≤ |x - y|) ∧
      (∀ y : ℚ, y.den ≤ maxd → |x - y| = |x - r| → r.den ≤ y.den) := by
  have hmin : ∀ y : ℚ, y.den ≤ maxd →
      min |x - B1| |x - B2| ≤ |x - y| ∧
        (|x - y| = min |x - B1| |x - B2| → y = B1 ∨ y = B2) := by
    intro y hy
    rcases horder with ⟨h1, h2, hadj⟩ | ⟨h1, h2, hadj⟩
    · exact rat_best_approx hadj h1 h2 (by omega) hy
    · have h := rat_best_approx hadj h1 h2 (by omega) hy
      rw [min_comm] at h
      exact ⟨h.1, fun he => (h.2 he).elim Or.inr Or.inl⟩
  by_cases hif : |B2 - x| ≤ |B1 - x|
  · have hr2 : r = B2 := by rw [hr, if_pos hif]
    have hle : |x - B2| ≤ |x - B1| := by
      rw [abs_sub_comm x B2, abs_sub_comm x B1]; exact hif
    have hminv : min |x - B1| |x - B2| = |x - B2| := min_eq_right hle
    refine ⟨by rw [hr2]; exact hB2den, ?_, ?_⟩
    · intro y hy
      have h := (hmin y hy).1
      rw [hminv] at h
      rw [hr2]
      exact h
    · intro y hy he
      have h2 := (hmin y hy).2
      rw [hminv] at h2
      rw [hr2] at he ⊢
      rcases h2 he with rfl | rfl
      · exact htie he
      · exact le_refl _
  · have hr2 : r = B1 := by rw [hr, if_neg hif]
    have hlt : |x - B1| < |x - B2| := by
      have h := lt_of_not_le hif
      rwa [abs_sub_comm B1 x, abs_sub_comm B2 x] at h
    have hminv : min |x - B1| |x - B2| = |x - B1| := min_eq_left (le_of_lt hlt)
    refine ⟨by rw [hr2]; exact hB1den, ?_, ?_⟩
    · intro y hy
      have h := (hmin y hy).1
      rw [hminv] at h
      rw [hr2]
      exact h
    · intro y hy he
      have h2 := (hmin y hy).2
      rw [hminv] at h2
      rw [hr2] at he ⊢
      rcases h2 he with rfl | rfl
      · exact le_refl _
      · rw [he] at hlt
        exact absurd hlt (lt_irrefl _)


/-- The two candidates of the break state of `limit_denominator`, as reduced
fractions: values, numerators and denominators. -/
theorem ld_candidates (p q : ℤ) (hq : 1 ≤ q) (hcop : Int.gcd p q = 1) :
    ratOfIntPair p q = (p : ℚ) / ((q : ℤ) : ℚ) ∧
      (ratOfIntPair p q).num = p ∧
      (((ratOfIntPair p q).den : ℕ) : ℤ) = q := by
  have hcast : ((q.toNat : ℕ) : ℚ) = ((q : ℤ) : ℚ) := by
    have h := Int.toNat_of_nonneg (show (0 : ℤ) ≤ q by omega)
    exact_mod_cast congrArg (fun z : ℤ => (z : ℚ)) h
  have hval : ratOfIntPair p q = (p : ℚ) / ((q : ℤ) : ℚ) := by
    rw [ratOfIntPair, if_pos (show (0 : ℤ) ≤ q by omega), Rat.mkRat_eq_div, hcast]
  have hcop' : p.natAbs.Coprime q.natAbs := hcop
  refine ⟨hval, ?_, ?_⟩
  · rw [hval]; exact Rat.num_div_eq_of_coprime (by omega) hcop'
  · rw [hval]; exact Rat.den_div_eq_of_coprime (by omega) hcop'

/-- Correctness of the candidate choice at the break state of the
`limit_denominator` loop: the chosen fraction has denominator within the
bound, is at minimal distance from `x` among all fractions with denominator
within the bound, and on ties has the smallest denominator among the tied
fractions. -/
theorem ld_final (x : ℚ) (maxd : ℕ) (p0 q0 p1 q1 n d k : ℤ) (r : ℚ)
    (hcross : p1 * q0 - p0 * q1 = 1 ∨ p1 * q0 - p0 * q1 = -1)
    (hN : x.num = p1 * n + p0 * d)
    (hD : ((x.den : ℕ) : ℤ) = q1 * n + q0 * d)
    (hd1 : 1 ≤ d) (hdn : d < n)
    (hq0 : 0 ≤ q0) (hq01 : q0 ≤ q1) (hq1 : 1 ≤ q1) (hq1m : q1 ≤ (maxd : ℤ))
    (hk0 : 0 ≤ k)
    (hkle : q0 + k * q1 ≤ (maxd : ℤ))
    (hklt : (maxd : ℤ) < q0 + k * q1 + q1)
    (hnkd : 1 ≤ n - k * d)
    (hr : r = if |ratOfIntPair p1 q1 - x| ≤
        |ratOfIntPair (p0 + k * p1) (q0 + k * q1) - x|
      then ratOfIntPair p1 q1 else ratOfIntPair (p0 + k * p1) (q0 + k * q1)) :
    r.den ≤ maxd ∧ (∀ y : ℚ, y.den ≤ maxd → |x - r| ≤ |x - y|) ∧
      (∀ y : ℚ, y.den ≤ maxd → |x - y| = |x - r| → r.den ≤ y.den) := by
  have hq1pos : (0 : ℤ) < q1 := by omega
  have hqB1posZ : (0 : ℤ) < q0 + k * q1 := by
    have h8 := mul_nonneg hk0 (show (0 : ℤ) ≤ q1 by omega)
    rcases eq_or_lt_of_le hk0 with hkz | hk1
    · have : k = 0 := hkz.symm
      subst this
      simp only [zero_mul, add_zero]
      -- q0 = 0 would give q0 + k*q1 + q1 = q1 ≤ maxd, contradicting hklt
      by_contra hq0z
      push_neg at hq0z
      have : q0 = 0 := by omega
      omega
    · have h9 : 1 ≤ k := by omega
      have h10 := mul_le_mul_of_nonneg_right h9 (show (0 : ℤ) ≤ q1 by omega)
      linarith
  have hDpos : (0 : ℤ) < ((x.den : ℕ) : ℤ) := by exact_mod_cast x.den_pos
  -- coprimality of the candidates
  have hgcdB2 : Int.gcd p1 q1 = 1 := by
    rw [Int.gcd_eq_one_iff_coprime]
    rcases hcross with h | h
    · exact ⟨q0, -p0, by linear_combination h⟩
    · exact ⟨-q0, p0, by linear_combination (-1 : ℤ) * h⟩
  have hgcdB1 : Int.gcd (p0 + k * p1) (q0 + k * q1) = 1 := by
    rw [Int.gcd_eq_one_iff_coprime]
    rcases hcross with h | h
    · exact ⟨-q1, p1, by linear_combination h⟩
    · exact ⟨q1, -p1, by linear_combination (-1 : ℤ) * h⟩
  obtain ⟨hB2val, hB2num, hB2den⟩ := ld_candidates p1 q1 hq1 hgcdB2
  obtain ⟨hB1val, hB1num, hB1den⟩ :=
    ld_candidates (p0 + k * p1) (q0 + k * q1) (by omega) hgcdB1
  -- cast versions of the state identities
  have hNq : ((x.num : ℤ) : ℚ) = ((p1 * n + p0 * d : ℤ) : ℚ) := by
    exact_mod_cast hN
  have hDq : (((x.den : ℕ) : ℤ) : ℚ) = ((q1 * n + q0 * d : ℤ) : ℚ) := by
    exact_mod_cast hD
  push_cast at hNq hDq
  have hxval : x = (x.num : ℚ) / ((x.den : ℕ) : ℚ) := (Rat.num_div_den x).symm
  have hden_ne : (((x.den : ℕ)) : ℚ) ≠ 0 := by
    have h : (0 : ℚ) < ((x.den : ℕ) : ℚ) := by exact_mod_cast x.den_pos
    exact ne_of_gt h
  have hq1_ne : ((q1 : ℤ) : ℚ) ≠ 0 := ne_of_gt (by exact_mod_cast hq1pos)
  have hqB1_ne : (((q0 + k * q1) : ℤ) : ℚ) ≠ 0 :=
    ne_of_gt (by exact_mod_cast hqB1posZ)
  -- signed difference identities
  have hdiff2 : x - ratOfIntPair p1 q1 =
      ((-(p1 * q0 - p0 * q1) * d : ℤ) : ℚ) /
        (((x.den : ℕ) : ℚ) * ((q1 : ℤ) : ℚ)) := by
    rw [hB2val]
    conv_lhs => rw [hxval]
    rw [div_sub_div _ _ hden_ne hq1_ne]
    congr 1
    push_cast
    linear_combination ((q1 : ℤ) : ℚ) * hNq - (p1 : ℚ) * hDq
  have hdiff1 : x - ratOfIntPair (p0 + k * p1) (q0 + k * q1) =
      (((p1 * q0 - p0 * q1) * (n - k * d) : ℤ) : ℚ) /
        (((x.den : ℕ) : ℚ) * (((q0 + k * q1) : ℤ) : ℚ)) := by
    rw [hB1val]
    conv_lhs => rw [hxval]
    rw [div_sub_div _ _ hden_ne hqB1_ne]
    congr 1
    push_cast
    linear_combination ((q0 : ℚ) + (k : ℚ) * (q1 : ℚ)) * hNq -
      ((p0 : ℚ) + (k : ℚ) * (p1 : ℚ)) * hDq
  -- absolute distances, independent of the sign case
  have hposden2 : (0 : ℚ) < ((x.den : ℕ) : ℚ) * ((q1 : ℤ) : ℚ) := by
    have h1 : (0 : ℚ) < ((x.den : ℕ) : ℚ) := by exact_mod_cast x.den_pos
    have h2 : (0 : ℚ) < ((q1 : ℤ) : ℚ) := by exact_mod_cast hq1pos
    positivity
  have hposden1 : (0 : ℚ) < ((x.den : ℕ) : ℚ) * (((q0 + k * q1) : ℤ) : ℚ) := by
    have h1 : (0 : ℚ) < ((x.den : ℕ) : ℚ) := by exact_mod_cast x.den_pos
    have h2 : (0 : ℚ) < (((q0 + k * q1) : ℤ) : ℚ) := by exact_mod_cast hqB1posZ
    positivity
  have hdpos : (0 : ℚ) < ((d : ℤ) : ℚ) := by exact_mod_cast hd1
  have hnkdpos : (0 : ℚ) < ((n - k * d : ℤ) : ℚ) := by exact_mod_cast hnkd
  have habs2 : |x - ratOfIntPair p1 q1| =
      ((d : ℤ) : ℚ) / (((x.den : ℕ) : ℚ) * ((q1 : ℤ) : ℚ)) := by
    rw [hdiff2]
    rcases hcross with h | h
    · rw [h]
      rw [abs_div, abs_of_pos hposden2]
      congr 1
      rw [show ((-(1 : ℤ) * d : ℤ) : ℚ) = -((d : ℤ) : ℚ) by push_cast; ring]
      rw [abs_neg, abs_of_pos hdpos]
    · rw [h]
      rw [abs_div, abs_of_pos hposden2]
      congr 1
      rw [show ((-(-1 : ℤ) * d : ℤ) : ℚ) = ((d : ℤ) : ℚ) by push_cast; ring]
      rw [abs_of_pos hdpos]
  have habs1 : |x - ratOfIntPair (p0 + k * p1) (q0 + k * q1)| =
      ((n - k * d : ℤ) : ℚ) /
        (((x.den : ℕ) : ℚ) * (((q0 + k * q1) : ℤ) : ℚ)) := by
    rw [hdiff1]
    rcases hcross with h | h
    · rw [h]
      rw [abs_div, abs_of_pos hposden1]
      congr 1
      rw [show (((1 : ℤ) * (n - k * d) : ℤ) : ℚ) = ((n - k * d : ℤ) : ℚ) by
        push_cast; ring]
      rw [abs_of_pos hnkdpos]
    · rw [h]
      rw [abs_div, abs_of_pos hposden1]
      congr 1
      rw [show (((-1 : ℤ) * (n - k * d) : ℤ) : ℚ) = -((n - k * d : ℤ) : ℚ) by
        push_cast; ring]
      rw [abs_neg, abs_of_pos hnkdpos]
  -- tie forces k at least 1, hence the second candidate has the smaller
  -- denominator
  have htie : |x - ratOfIntPair (p0 + k * p1) (q0 + k * q1)| =
      |x - ratOfIntPair p1 q1| →
      (ratOfIntPair p1 q1).den ≤
        (ratOfIntPair (p0 + k * p1) (q0 + k * q1)).den := by
    intro ht
    rw [habs1, habs2] at ht
    rw [div_eq_div_iff (by positivity) (by positivity)] at ht
    have htint : (n - k * d) * (((x.den : ℕ) : ℤ) * q1) =
        d * (((x.den : ℕ) : ℤ) * (q0 + k * q1)) := by
      exact_mod_cast ht
    have hcancel : (n - k * d) * q1 = d * (q0 + k * q1) := by
      have hDne : ((x.den : ℕ) : ℤ) ≠ 0 := by omega
      apply mul_left_cancel₀ hDne
      linarith [htint]
    have hk1 : 1 ≤ k := by
      by_contra hkz
      push_neg at hkz
      have hke : k = 0 := by omega
      rw [hke] at hcancel
      simp only [zero_mul, sub_zero, add_zero] at hcancel
      -- n * q1 = d * q0 is impossible: d * q0 ≤ d * q1 < n * q1
      have h11 : d * q0 ≤ d * q1 := mul_le_mul_of_nonneg_left hq01 (by omega)
      have h12 : d * q1 < n * q1 := mul_lt_mul_of_pos_right hdn hq1pos
      omega
    -- now q1 ≤ q0 + k * q1
    have h13 := mul_le_mul_of_nonneg_right hk1 (show (0 : ℤ) ≤ q1 by omega)
    have h14 : q1 ≤ q0 + k * q1 := by linarith
    have h15 : (((ratOfIntPair p1 q1).den : ℕ) : ℤ) ≤
        (((ratOfIntPair (p0 + k * p1) (q0 + k * q1)).den : ℕ) : ℤ) := by
      rw [hB2den, hB1den]
      exact h14
    exact_mod_cast h15
  -- denominators are within the bound
  have hB2denle : (ratOfIntPair p1 q1).den ≤ maxd := by
    have h16 : (((ratOfIntPair p1 q1).den : ℕ) : ℤ) ≤ (maxd : ℤ) := by
      rw [hB2den]; exact hq1m
    exact_mod_cast h16
  have hB1denle : (ratOfIntPair (p0 + k * p1) (q0 + k * q1)).den ≤ maxd := by
    have h17 : (((ratOfIntPair (p0 + k * p1) (q0 + k * q1)).den : ℕ) : ℤ) ≤
        (maxd : ℤ) := by
      rw [hB1den]; linarith
    exact_mod_cast h17
  have hsum : maxd < (ratOfIntPair (p0 + k * p1) (q0 + k * q1)).den +
      (ratOfIntPair p1 q1).den := by
    have h18 : (maxd : ℤ) <
        (((ratOfIntPair (p0 + k * p1) (q0 + k * q1)).den : ℕ) : ℤ) +
          (((ratOfIntPair p1 q1).den : ℕ) : ℤ) := by
      rw [hB1den, hB2den]; linarith
    exact_mod_cast h18
  -- the order of x between the candidates, by the sign of the cross product
  have horder : (ratOfIntPair (p0 + k * p1) (q0 + k * q1) < x ∧
        x < ratOfIntPair p1 q1 ∧
        (ratOfIntPair p1 q1).num *
            ((ratOfIntPair (p0 + k * p1) (q0 + k * q1)).den : ℤ) -
          (ratOfIntPair (p0 + k * p1) (q0 + k * q1)).num *
            ((ratOfIntPair p1 q1).den : ℤ) = 1) ∨
      (ratOfIntPair p1 q1 < x ∧
        x < ratOfIntPair (p0 + k * p1) (q0 + k * q1) ∧
        (ratOfIntPair (p0 + k * p1) (q0 + k * q1)).num *
            ((ratOfIntPair p1 q1).den : ℤ) -
          (ratOfIntPair p1 q1).num *
            ((ratOfIntPair (p0 + k * p1) (q0 + k * q1)).den : ℤ) = 1) := by
    rcases hcross with h | h
    · -- x - B1 > 0 and x - B2 < 0
      left
      refine ⟨?_, ?_, ?_⟩
      · rw [← sub_pos, hdiff1, h]
        apply div_pos _ hposden1
        rw [show (((1 : ℤ) * (n - k * d) : ℤ) : ℚ) = ((n - k * d : ℤ) : ℚ) by
          push_cast; ring]
        exact hnkdpos
      · rw [← sub_pos]
        have h19 : x - ratOfIntPair p1 q1 < 0 := by
          rw [hdiff2, h]
          apply div_neg_of_neg_of_pos _ hposden2
          rw [show ((-(1 : ℤ) * d : ℤ) : ℚ) = -((d : ℤ) : ℚ) by push_cast; ring]
          linarith
        linarith
      · rw [hB2num, hB2den, hB1num, hB1den]
        linear_combination h
    · right
      refine ⟨?_, ?_, ?_⟩
      · rw [← sub_pos]
        have h20 : x - ratOfIntPair p1 q1 > 0 := by
          rw [hdiff2, h]
          apply div_pos _ hposden2
          rw [show ((-(-1 : ℤ) * d : ℤ) : ℚ) = ((d : ℤ) : ℚ) by push_cast; ring]
          exact hdpos
        linarith
      · rw [← sub_pos]
        have h21 : x - ratOfIntPair (p0 + k * p1) (q0 + k * q1) < 0 := by
          rw [hdiff1, h]
          apply div_neg_of_neg_of_pos _ hposden1
          rw [show (((-1 : ℤ) * (n - k * d) : ℤ) : ℚ) =
              -((n - k * d : ℤ) : ℚ) by push_cast; ring]
          linarith
        linarith
      · rw [hB2num, hB2den, hB1num, hB1den]
        linear_combination (-1 : ℤ) * h
  exact ld_choose x (ratOfIntPair (p0 + k * p1) (q0 + k * q1))
    (ratOfIntPair p1 q1) r maxd hr hB1denle hB2denle hsum horder htie

theorem limit_denominator_hard (x : ℚ) (maxd : ℕ) (hmaxd : 1 ≤ maxd)
    (hden : maxd < x.den) :
    (limit_denominator x maxd).den ≤ maxd ∧
      (∀ y : ℚ, y.den ≤ maxd → |x - limit_denominator x maxd| ≤ |x - y|) ∧
      (∀ y : ℚ, y.den ≤ maxd → |x - y| = |x - limit_denominator x maxd| →
        (limit_denominator x maxd).den ≤ y.den) := by
  obtain ⟨p0, q0, p1, q1, n, d, heq, hInv, hbrk⟩ :=
    limit_denominator_break x maxd hmaxd hden
  obtain ⟨hcross, hN, hD, hd1, hdn, hgcd, hq0, hq01, hq1, hq1m⟩ := hInv
  have hq1pos : (0 : ℤ) < q1 := by omega
  have hkid := Int.ediv_add_emod ((maxd : ℤ) - q0) q1
  have hrk0 : 0 ≤ ((maxd : ℤ) - q0) % q1 := Int.emod_nonneg _ (by omega)
  have hrk1 : ((maxd : ℤ) - q0) % q1 < q1 := Int.emod_lt_of_pos _ hq1pos
  have hk0 : 0 ≤ ((maxd : ℤ) - q0) / q1 := Int.ediv_nonneg (by omega) (by omega)
  have hkle : q0 + (((maxd : ℤ) - q0) / q1) * q1 ≤ (maxd : ℤ) := by linarith
  have hklt : (maxd : ℤ) < q0 + (((maxd : ℤ) - q0) / q1) * q1 + q1 := by linarith
  have hka : ((maxd : ℤ) - q0) / q1 < n / d := by
    by_contra hcon
    push_neg at hcon
    have h5 := mul_le_mul_of_nonneg_right hcon (show (0 : ℤ) ≤ q1 by omega)
    linarith
  have hr' : n - (n / d) * d = n % d := by
    have h := Int.ediv_add_emod n d
    rw [Int.mul_comm d (n / d)] at h
    linarith
  have hrnn : 0 ≤ n - (n / d) * d := by
    rw [hr']; exact Int.emod_nonneg n (by omega)
  have hnkd : 1 ≤ n - (((maxd : ℤ) - q0) / q1) * d := by
    have h5 : 1 ≤ n / d - ((maxd : ℤ) - q0) / q1 := by omega
    have h6 : 1 * d ≤ (n / d - ((maxd : ℤ) - q0) / q1) * d :=
      mul_le_mul_of_nonneg_right h5 (by omega)
    nlinarith [hrnn]
  have hldeq : limit_denominator x maxd =
      (if |ratOfIntPair p1 q1 - x| ≤
          |ratOfIntPair (p0 + (((maxd : ℤ) - q0) / q1) * p1)
            (q0 + (((maxd : ℤ) - q0) / q1) * q1) - x|
       then ratOfIntPair p1 q1
       else ratOfIntPair (p0 + (((maxd : ℤ) - q0) / q1) * p1)
         (q0 + (((maxd : ℤ) - q0) / q1) * q1)) := by
    simp only [limit_denominator, heq]
    rw [if_neg (show ¬ x.den ≤ maxd by omega)]
  exact ld_final x maxd p0 q0 p1 q1 n d (((maxd : ℤ) - q0) / q1)
    (limit_denominator x maxd) hcross hN hD hd1 hdn hq0 hq01 hq1 hq1m
    hk0 hkle hklt hnkd hldeq

/-- C8: for every rational amount `a` and bound `d ≥ 1` (Python raises
`ValueError` for a bound below 1), the fraction that `toDisplayFraction`
renders — `limit_denominator a d`, which `convert_to_fraction` (and the
template filter, with `d = 8`) merely formats through `renderMixed` — has
denominator at most `d`, minimises the distance to `a` among all fractions
with denominator at most `d`, and on ties has the smallest denominator among
the tied fractions. -/
theorem C8_limit_denominator (a : ℚ) (d : ℕ) (hd : 1 ≤ d) :
    (limit_denominator a d).den ≤ d ∧
      (∀ y : ℚ, y.den ≤ d → |a - limit_denominator a d| ≤ |a - y|) ∧
      (∀ y : ℚ, y.den ≤ d → |a - y| = |a - limit_denominator a d| →
        (limit_denominator a d).den ≤ y.den) ∧
      (∀ (b : ℚ) (m : ℕ), convert_to_fraction b m =
        renderMixed (limit_denominator b m)) := by
  by_cases hcase : a.den ≤ d
  · have hld : limit_denominator a d = a := by
      simp [limit_denominator, hcase]
    rw [hld]
    refine ⟨hcase, ?_, ?_, fun b m => rfl⟩
    · intro y hy
      simp [abs_nonneg]
    · intro y hy hzero
      have h1 : |a - y| = 0 := by simpa using hzero
      have h2 : a = y := sub_eq_zero.mp (abs_eq_zero.mp h1)
      rw [← h2]
  · have h := limit_denominator_hard a d hd (by omega)
    exact ⟨h.1, h.2.1, h.2.2, fun b m => rfl⟩

/-- C8 witness: `C8_limit_denominator` at the amount 7/12 with bound 4 (where
the loop actually runs: the best approximations are 1/2 and 2/3, tied, and
the result 1/2 takes the smaller denominator). -/
theorem C8_witness :
    1 ≤ 4 ∧
      ((limit_denominator (mkRat 7 12) 4).den ≤ 4 ∧
        (∀ y : ℚ, y.den ≤ 4 →
          |mkRat 7 12 - limit_denominator (mkRat 7 12) 4| ≤ |mkRat 7 12 - y|) ∧
        (∀ y : ℚ, y.den ≤ 4 →
          |mkRat 7 12 - y| = |mkRat 7 12 - limit_denominator (mkRat 7 12) 4| →
          (limit_denominator (mkRat 7 12) 4).den ≤ y.den) ∧
        (∀ (b : ℚ) (m : ℕ), convert_to_fraction b m =
          renderMixed (limit_denominator b m))) :=
  ⟨by decide, C8_limit_denominator (mkRat 7 12) 4 (by decide)⟩
